import Mathlib

/-!
Shallow embedding of the `eda` repository's two containers:

* `src/src/vector.rs` — a manually allocated growable array `Vector<T>`
  with `new`, `len`, `capacity`, `push`, `pop`, `grow`, and slice access
  through `Deref`.
* `src/src/linked_list.rs` — a singly linked list `LinkedList<T>` with
  `new`, `push`, `pop`.

Modelling conventions:

* The backing buffer of `Vector<T>` is represented by its occupied prefix
  `buf : List T` — the live values in slots `[0, length)` in index order.
  Slots `[length, capacity)` are uninitialized memory in the Rust code
  (never read, never dropped), so they carry no information and are not
  part of the state.  `self.length` is therefore `buf.length`;
  `ptr::write(self.ptr.add(self.length), element)` followed by
  `self.length += 1` is `buf := buf ++ [element]`; the
  `self.length -= 1; ptr::read(self.ptr.add(self.length))` of `pop` reads
  the last element of the prefix and shrinks it by one.
* `capacity : Nat` is the `capacity` field.  The allocation itself is
  abstracted away: `alloc`/`realloc` preserve the occupied bytes, which in
  this model means `buf` is unchanged by `grow`.  `capacity = 0` models
  the "no backing allocation, dangling pointer" state.
* Machine integers (`usize`) are `Nat`; the only place where a platform
  limit matters is the `assert!(new_layout.size() <= isize::MAX as usize)`
  in `grow`, modelled with the explicit constant `isizeMax` (64-bit
  platform).
* Fatal failures (`assert!` panics, `unwrap`/`expect` aborts) are
  `Except.error` with the panic message; the pure success path is
  `Except.ok`.  Out-of-memory from the allocator itself is not modelled:
  in the pure model an allocation within the platform size limit succeeds.
-/

set_option maxHeartbeats 1000000

namespace Eda

/-- The constant `isize::MAX` as a natural number, for a 64-bit platform. -/
def isizeMax : Nat := 2 ^ 63 - 1

/-- State of `Vector<T>` from `src/src/vector.rs`: `buf` is the occupied
prefix of the allocation (the live values in slots `[0, length)`), so the
`length` field is `buf.length`; `capacity` is the `capacity` field. -/
structure Vector (T : Type) where
  buf : List T
  capacity : Nat
deriving DecidableEq

/-- Method `Vector::len`: returns `self.length`. -/
def Vector.len {T : Type} (v : Vector T) : Nat :=
  v.buf.length

/-- Constructor `Vector::new`, parametrised by `size_of::<T>()`:
asserts the element size is non-zero, then returns the vector with a
dangling (non-allocated) pointer, capacity 0 and length 0. -/
def Vector.new (T : Type) (elemSize : Nat) : Except String (Vector T) :=
  if elemSize ≠ 0 then
    .ok { buf := [], capacity := 0 }
  else
    .error "Zero-sized type are not supported >:X"

/-- Method `Vector::grow`: the new capacity is 1 when the old capacity is 0 and
double the old capacity otherwise; the byte size of the new layout is
`new_capacity * size_of::<T>()` and the `assert!` rejects it fatally when
it exceeds `isize::MAX`, before any allocation call; otherwise
`alloc`/`realloc` preserve the occupied bytes (so `buf` is unchanged) and
the capacity field is updated. -/
def Vector.grow {T : Type} (elemSize : Nat) (v : Vector T) : Except String (Vector T) :=
  let new_capacity := if v.capacity = 0 then 1 else v.capacity * 2
  let new_layout_size := new_capacity * elemSize
  if new_layout_size ≤ isizeMax then
    .ok { v with capacity := new_capacity }
  else
    .error "Allocation too large"

/-- Method `Vector::push`: grows first when `length == capacity`, then
construct-in-place writes `element` into slot `length` (appending to the
occupied prefix) and increments `length`. -/
def Vector.push {T : Type} (elemSize : Nat) (v : Vector T) (element : T) :
    Except String (Vector T) :=
  if v.len = v.capacity then
    match v.grow elemSize with
    | .error e => .error e
    | .ok v' => .ok { v' with buf := v'.buf ++ [element] }
  else
    .ok { v with buf := v.buf ++ [element] }

/-- Method `Vector::pop`: returns `None` on length 0; otherwise decrements
`length` and moves the value out of the now-excluded slot (the last
element of the occupied prefix). -/
def Vector.pop {T : Type} (v : Vector T) : Option T × Vector T :=
  if v.len = 0 then
    (none, v)
  else
    (v.buf.getLast?, { v with buf := v.buf.dropLast })

/-- Slice indexing through the `Deref` impl:
`&v[i]` reads slot `i` of `slice::from_raw_parts(self.ptr, self.length)`;
out of bounds is a trap, modelled as `none`. -/
def Vector.get? {T : Type} (v : Vector T) (i : Nat) : Option T :=
  v.buf[i]?

/-- One operation of the public mutating interface shared by `Vector`
and `LinkedList`. -/
inductive Op (T : Type) where
  | push (x : T)
  | pop
deriving DecidableEq

/-- Run a sequence of operations on a `Vector`, collecting each `pop`
result; propagates the fatal error if some `push` aborts. -/
def Vector.runOps {T : Type} (elemSize : Nat) (v : Vector T) :
    List (Op T) → Except String (List (Option T) × Vector T)
  | [] => .ok ([], v)
  | Op.push x :: ops =>
      match v.push elemSize x with
      | .error e => .error e
      | .ok v' => Vector.runOps elemSize v' ops
  | Op.pop :: ops =>
      match Vector.runOps elemSize (v.pop).2 ops with
      | .error e => .error e
      | .ok (outs, vf) => .ok ((v.pop).1 :: outs, vf)

/-- Push a list of values in order (no pops). -/
def Vector.pushAll {T : Type} (elemSize : Nat) (v : Vector T) :
    List T → Except String (Vector T)
  | [] => .ok v
  | x :: xs =>
      match v.push elemSize x with
      | .error e => .error e
      | .ok v' => Vector.pushAll elemSize v' xs

/-- The abstract LIFO stack the spec describes: a list with the most
recently pushed element at the head.  `pop` on an empty stack yields
`none`.  Returns the collected `pop` results and the final stack. -/
def runStack {T : Type} (s : List T) :
    List (Op T) → List (Option T) × List T
  | [] => ([], s)
  | Op.push x :: ops => runStack (x :: s) ops
  | Op.pop :: ops =>
      (s.head? :: (runStack s.tail ops).1, (runStack s.tail ops).2)

/-- Predicate: `c` is the least power of two that is at least `n`. -/
def isLeastPow2Geq (c n : Nat) : Prop :=
  (∃ k, c = 2 ^ k) ∧ n ≤ c ∧ ∀ m, (∃ j, m = 2 ^ j) → n ≤ m → c ≤ m

/-- The type `Link<T> = Option<Box<Node<T>>>` from `src/src/linked_list.rs`,
with the `Option` and the heap indirection `Box` fused into one
inductive: `Link.nil` is `None`, `Link.node e next` is
`Some(Box::new(Node { element: e, next }))`. -/
inductive Link (T : Type) where
  | nil
  | node (element : T) (next : Link T)
deriving DecidableEq

/-- The type `LinkedList<T>`: just a head link. -/
structure LinkedList (T : Type) where
  head : Link T
deriving DecidableEq

/-- Constructor `LinkedList::new`: empty list. -/
def LinkedList.new (T : Type) : LinkedList T :=
  { head := .nil }

/-- Method `LinkedList::push`: allocates a new node holding `element` whose
`next` takes the old head, and moves the head to the new node. -/
def LinkedList.push {T : Type} (l : LinkedList T) (element : T) : LinkedList T :=
  { head := .node element l.head }

/-- Method `LinkedList::pop`, i.e. `self.head.take().map(...)` — on an empty list the
head stays `None` and the result is `None`; otherwise the head moves to
the node's `next` and the node's element is returned. -/
def LinkedList.pop {T : Type} (l : LinkedList T) : Option T × LinkedList T :=
  match l.head with
  | .nil => (none, l)
  | .node element next => (some element, { head := next })

/-- The elements of a link chain, head (most recently pushed) first. -/
def Link.toList {T : Type} : Link T → List T
  | .nil => []
  | .node element next => element :: next.toList

/-- Run a sequence of operations on a `LinkedList`, collecting each `pop`
result.  Nothing in the list's interface can fail, so this is total. -/
def LinkedList.runOps {T : Type} (l : LinkedList T) :
    List (Op T) → List (Option T) × LinkedList T
  | [] => ([], l)
  | Op.push x :: ops => (l.push x).runOps ops
  | Op.pop :: ops =>
      ((l.pop).1 :: (LinkedList.runOps (l.pop).2 ops).1,
        (LinkedList.runOps (l.pop).2 ops).2)

end Eda

deriving instance DecidableEq for Except

namespace Eda

/-- Constructor `new` succeeds exactly on a non-zero element size, and then yields the
empty vector with capacity 0. -/
lemma Vector.new_ok {T : Type} {elemSize : Nat} {v0 : Vector T}
    (h : Vector.new T elemSize = .ok v0) :
    v0 = { buf := [], capacity := 0 } ∧ elemSize ≠ 0 := by
  unfold Vector.new at h
  split at h
  · injection h with h
    exact ⟨h.symm, by assumption⟩
  · exact Except.noConfusion h

/-- A successful `grow` keeps the buffer contents and sets the capacity to
1 (from 0) or double the old value. -/
lemma Vector.grow_ok {T : Type} {elemSize : Nat} {v v' : Vector T}
    (h : v.grow elemSize = .ok v') :
    v'.buf = v.buf ∧
      v'.capacity = (if v.capacity = 0 then 1 else v.capacity * 2) := by
  unfold Vector.grow at h
  split at h <;> dsimp only at h <;> split at h <;>
    first
      | · injection h with h
          subst h
          simp_all
      | · exact Except.noConfusion h

/-- A successful `push` appends to the occupied prefix, never shrinks the
capacity, and preserves the `length <= capacity` invariant. -/
lemma Vector.push_ok {T : Type} {elemSize : Nat} {v v' : Vector T} {x : T}
    (h : v.push elemSize x = .ok v') :
    v'.buf = v.buf ++ [x] ∧ v.capacity ≤ v'.capacity ∧
      (v.len ≤ v.capacity → v'.len ≤ v'.capacity) ∧
      ((v.len ≠ v.capacity ∧ v'.capacity = v.capacity) ∨
        (v.len = v.capacity ∧
          v'.capacity = (if v.capacity = 0 then 1 else v.capacity * 2))) := by
  unfold Vector.push at h
  split at h
  case isTrue hlen =>
    cases hg : v.grow elemSize with
    | error e =>
        rw [hg] at h
        exact Except.noConfusion h
    | ok w =>
        rw [hg] at h
        injection h with h
        subst h
        obtain ⟨hbuf, hcap⟩ := Vector.grow_ok hg
        refine ⟨by rw [hbuf], ?_, fun _ => ?_, Or.inr ⟨hlen, hcap⟩⟩
        · show v.capacity ≤ w.capacity
          rw [hcap]
          split <;> omega
        · have h1 : Vector.len { w with buf := w.buf ++ [x] } = v.len + 1 := by
            simp [Vector.len, hbuf]
          have h2 : Vector.capacity { w with buf := w.buf ++ [x] } = w.capacity := rfl
          rw [h1, h2, hlen, hcap]
          split <;> omega
  case isFalse hlen =>
    injection h with h
    subst h
    refine ⟨rfl, Nat.le_refl _, fun hle => ?_, Or.inl ⟨hlen, rfl⟩⟩
    have h1 : Vector.len { v with buf := v.buf ++ [x] } = v.len + 1 := by
      simp [Vector.len]
    rw [h1]
    show v.len + 1 ≤ v.capacity
    omega

/-- Method `pop` always reads the last element of the occupied prefix and drops
it; on an empty vector this is `(none, v)` unchanged. -/
lemma Vector.pop_eq {T : Type} (v : Vector T) :
    v.pop = (v.buf.getLast?, { v with buf := v.buf.dropLast }) := by
  cases v with
  | mk buf cap =>
      cases buf with
      | nil => rfl
      | cons a t => simp [Vector.pop, Vector.len]

/-- Refinement of `Vector.runOps` by the abstract stack: if the occupied
prefix of `v` is the reverse of the stack `s` (top of stack = last slot),
then a successful run produces the same `pop` outputs as the stack run,
and the final buffer again mirrors the final stack. -/
lemma Vector.runOps_refines_stack {T : Type} (elemSize : Nat) :
    ∀ (ops : List (Op T)) (v : Vector T) (s : List T), v.buf = s.reverse →
      ∀ (outs : List (Option T)) (v' : Vector T),
        Vector.runOps elemSize v ops = .ok (outs, v') →
        outs = (runStack s ops).1 ∧ v'.buf = ((runStack s ops).2).reverse := by
  intro ops
  induction ops with
  | nil =>
      intro v s hs outs v' h
      simp only [Vector.runOps, Except.ok.injEq, Prod.mk.injEq] at h
      obtain ⟨h1, h2⟩ := h
      subst h1
      subst h2
      exact ⟨rfl, hs⟩
  | cons op ops ih =>
      intro v s hs outs v' h
      cases op with
      | push x =>
          unfold Vector.runOps at h
          cases hp : v.push elemSize x with
          | error e =>
              rw [hp] at h
              exact Except.noConfusion h
          | ok w =>
              rw [hp] at h
              obtain ⟨hbuf, -, -⟩ := Vector.push_ok hp
              have hs' : w.buf = (x :: s).reverse := by
                rw [hbuf, hs, List.reverse_cons]
              have hres := ih w (x :: s) hs' outs v' h
              simpa [runStack] using hres
      | pop =>
          unfold Vector.runOps at h
          cases hr : Vector.runOps elemSize (v.pop).2 ops with
          | error e =>
              rw [hr] at h
              exact Except.noConfusion h
          | ok p =>
              obtain ⟨outs1, vf⟩ := p
              rw [hr] at h
              simp only [Except.ok.injEq, Prod.mk.injEq] at h
              obtain ⟨h1, h2⟩ := h
              subst h2
              have hpop := Vector.pop_eq v
              have hs2 : (v.pop).2.buf = s.tail.reverse := by
                rw [hpop]
                show v.buf.dropLast = s.tail.reverse
                rw [hs]
                cases s with
                | nil => rfl
                | cons a t => simp [List.reverse_cons, List.dropLast_concat]
              obtain ⟨ho, hb⟩ := ih (v.pop).2 s.tail hs2 outs1 vf hr
              have hout1 : (v.pop).1 = s.head? := by
                rw [hpop]
                show v.buf.getLast? = s.head?
                rw [hs]
                exact List.getLast?_reverse s
              constructor
              · rw [← h1, hout1, ho]
                simp [runStack]
              · simpa [runStack] using hb

/-- Claim C1: for every sequence of push and pop operations on a `Vector`
starting from `new()`, the pops return exactly what the abstract LIFO
stack returns — each `pop` yields the most recently pushed, not yet
popped element, and `pop` on an empty vector yields `none` — and the
final occupied prefix mirrors the abstract stack. -/
theorem vector_push_pop_lifo {T : Type} (elemSize : Nat) (ops : List (Op T))
    (v0 : Vector T) (hnew : Vector.new T elemSize = .ok v0)
    (outs : List (Option T)) (v' : Vector T)
    (h : Vector.runOps elemSize v0 ops = .ok (outs, v')) :
    outs = (runStack [] ops).1 ∧ v'.buf = ((runStack [] ops).2).reverse := by
  obtain ⟨hv0, -⟩ := Vector.new_ok hnew
  subst hv0
  exact Vector.runOps_refines_stack elemSize ops _ [] rfl outs v' h

/-- Claim C1, witness: the spec's concrete scenario — push 1, 2, 3, pop
twice (3 then 2), push 4, 5, pop twice (5 then 4), pop twice more
(1 then empty). -/
theorem vector_push_pop_lifo_witness :
    ([some 3, some 2, some 5, some 4, some 1, none] : List (Option Nat)) =
        (runStack ([] : List Nat)
          [Op.push 1, Op.push 2, Op.push 3, Op.pop, Op.pop, Op.push 4,
           Op.push 5, Op.pop, Op.pop, Op.pop, Op.pop]).1 ∧
      ({ buf := [], capacity := 4 } : Vector Nat).buf =
        ((runStack ([] : List Nat)
          [Op.push 1, Op.push 2, Op.push 3, Op.pop, Op.pop, Op.push 4,
           Op.push 5, Op.pop, Op.pop, Op.pop, Op.pop]).2).reverse :=
  vector_push_pop_lifo 8
    [Op.push 1, Op.push 2, Op.push 3, Op.pop, Op.pop, Op.push 4,
     Op.push 5, Op.pop, Op.pop, Op.pop, Op.pop]
    { buf := [], capacity := 0 } (by decide)
    [some 3, some 2, some 5, some 4, some 1, none]
    { buf := [], capacity := 4 } (by decide)

/-- A successful `pushAll` appends all the values in order, never shrinks
the capacity, and preserves the `length <= capacity` invariant. -/
lemma Vector.pushAll_ok {T : Type} {elemSize : Nat} :
    ∀ (xs : List T) (v v' : Vector T), v.pushAll elemSize xs = .ok v' →
      v'.buf = v.buf ++ xs ∧ v.capacity ≤ v'.capacity ∧
        (v.len ≤ v.capacity → v'.len ≤ v'.capacity) := by
  intro xs
  induction xs with
  | nil =>
      intro v v' h
      unfold Vector.pushAll at h
      injection h with h
      subst h
      exact ⟨by simp, Nat.le_refl _, fun hle => hle⟩
  | cons x xs ih =>
      intro v v' h
      unfold Vector.pushAll at h
      cases hp : v.push elemSize x with
      | error e =>
          rw [hp] at h
          exact Except.noConfusion h
      | ok w =>
          rw [hp] at h
          obtain ⟨hbuf, hcap, hinv, -⟩ := Vector.push_ok hp
          obtain ⟨hbuf', hcap', hinv'⟩ := ih w v' h
          refine ⟨?_, Nat.le_trans hcap hcap', fun hle => hinv' (hinv hle)⟩
          rw [hbuf', hbuf, List.append_assoc]
          rfl

/-- Claim C2: after pushing `v0..v(n-1)` in order onto a vector built by
`new()` (no pops), index access at each `i < n` through the `Deref` slice
yields exactly the `i`-th pushed value. -/
theorem vector_index_after_pushes {T : Type} (elemSize : Nat) (xs : List T)
    (v0 v : Vector T) (hnew : Vector.new T elemSize = .ok v0)
    (h : v0.pushAll elemSize xs = .ok v) :
    ∀ (i : Nat) (hi : i < xs.length), v.get? i = some (xs.get ⟨i, hi⟩) := by
  obtain ⟨hv0, -⟩ := Vector.new_ok hnew
  subst hv0
  obtain ⟨hbuf, -, -⟩ := Vector.pushAll_ok xs _ v h
  intro i hi
  simp only [Vector.get?, hbuf, List.nil_append]
  simp [List.getElem?_eq_getElem hi]

/-- Claim C2, witness: pushing 10, 20, 30 and reading index 1. -/
theorem vector_index_after_pushes_witness :
    ({ buf := [10, 20, 30], capacity := 4 } : Vector Nat).get? 1 =
      some ([10, 20, 30].get ⟨1, by decide⟩) :=
  vector_index_after_pushes 8 [10, 20, 30] { buf := [], capacity := 0 }
    { buf := [10, 20, 30], capacity := 4 } (by decide) (by decide) 1 (by decide)

/-- Claim C5: after any sequence of `N` pushes with no pops on a vector
built by `new()`, `len()` returns `N` and `capacity()` returns at least
`N`. -/
theorem vector_len_capacity_after_pushes {T : Type} (elemSize : Nat)
    (xs : List T) (v0 v : Vector T) (hnew : Vector.new T elemSize = .ok v0)
    (h : v0.pushAll elemSize xs = .ok v) :
    v.len = xs.length ∧ xs.length ≤ v.capacity := by
  obtain ⟨hv0, -⟩ := Vector.new_ok hnew
  subst hv0
  obtain ⟨hbuf, -, hinv⟩ := Vector.pushAll_ok xs _ v h
  have hlen : v.len = xs.length := by
    simp [Vector.len, hbuf]
  exact ⟨hlen, hlen ▸ hinv (Nat.le_refl 0)⟩

/-- Claim C5, witness: five pushes give length 5 and capacity 8. -/
theorem vector_len_capacity_after_pushes_witness :
    ({ buf := [1, 2, 3, 4, 5], capacity := 8 } : Vector Nat).len =
        [1, 2, 3, 4, 5].length ∧
      ([1, 2, 3, 4, 5] : List Nat).length ≤
        ({ buf := [1, 2, 3, 4, 5], capacity := 8 } : Vector Nat).capacity :=
  vector_len_capacity_after_pushes 8 [1, 2, 3, 4, 5]
    { buf := [], capacity := 0 } { buf := [1, 2, 3, 4, 5], capacity := 8 }
    (by decide) (by decide)

/-- Claim C6: `pop` on a vector of length 0 returns `none` and leaves the
whole state (length, capacity, stored elements) unchanged. -/
theorem vector_pop_empty_unchanged {T : Type} (v : Vector T)
    (h : v.len = 0) : v.pop = (none, v) := by
  cases v with
  | mk buf cap =>
      have hbuf : buf = [] := List.length_eq_zero.mp h
      subst hbuf
      rfl

/-- Claim C6, witness: an empty vector that still has capacity 3. -/
theorem vector_pop_empty_unchanged_witness :
    ({ buf := [], capacity := 3 } : Vector Nat).pop =
      (none, ({ buf := [], capacity := 3 } : Vector Nat)) :=
  vector_pop_empty_unchanged { buf := [], capacity := 3 } rfl

/-- Claim C7: `new()` yields capacity 0, length 0 and no backing
allocation (in this model capacity 0 is exactly the unallocated dangling
state) when the element size is non-zero, and rejects a zero element size
with the fatal assertion instead of returning a vector. -/
theorem vector_new_empty_and_zst_rejected (T : Type) (elemSize : Nat) :
    (elemSize ≠ 0 →
        Vector.new T elemSize = .ok { buf := [], capacity := 0 }) ∧
      (elemSize = 0 →
        Vector.new T elemSize =
          .error "Zero-sized type are not supported >:X") := by
  constructor <;> intro h <;> simp [Vector.new, h]

/-- Claim C7, witness: element size 8 is accepted, element size 0 is
rejected. -/
theorem vector_new_empty_and_zst_rejected_witness :
    Vector.new Nat 8 = .ok { buf := [], capacity := 0 } ∧
      Vector.new Nat 0 = .error "Zero-sized type are not supported >:X" :=
  ⟨(vector_new_empty_and_zst_rejected Nat 8).1 (by decide),
    (vector_new_empty_and_zst_rejected Nat 0).2 rfl⟩

/-- A successful run of any operation sequence preserves the
`length <= capacity` invariant and never decreases the capacity. -/
lemma Vector.runOps_inv {T : Type} (elemSize : Nat) :
    ∀ (ops : List (Op T)) (v v' : Vector T) (outs : List (Option T)),
      Vector.runOps elemSize v ops = .ok (outs, v') →
      (v.len ≤ v.capacity → v'.len ≤ v'.capacity) ∧ v.capacity ≤ v'.capacity := by
  intro ops
  induction ops with
  | nil =>
      intro v v' outs h
      simp only [Vector.runOps, Except.ok.injEq, Prod.mk.injEq] at h
      obtain ⟨-, h2⟩ := h
      subst h2
      exact ⟨fun hle => hle, Nat.le_refl _⟩
  | cons op ops ih =>
      intro v v' outs h
      cases op with
      | push x =>
          unfold Vector.runOps at h
          cases hp : v.push elemSize x with
          | error e =>
              rw [hp] at h
              exact Except.noConfusion h
          | ok w =>
              rw [hp] at h
              obtain ⟨-, hcap, hinv, -⟩ := Vector.push_ok hp
              obtain ⟨hinv', hcap'⟩ := ih w v' outs h
              exact ⟨fun hle => hinv' (hinv hle), Nat.le_trans hcap hcap'⟩
      | pop =>
          unfold Vector.runOps at h
          cases hr : Vector.runOps elemSize (v.pop).2 ops with
          | error e =>
              rw [hr] at h
              exact Except.noConfusion h
          | ok p =>
              obtain ⟨outs1, vf⟩ := p
              rw [hr] at h
              simp only [Except.ok.injEq, Prod.mk.injEq] at h
              obtain ⟨-, h2⟩ := h
              subst h2
              obtain ⟨hinv', hcap'⟩ := ih (v.pop).2 vf outs1 hr
              have hpop := Vector.pop_eq v
              have hc : (v.pop).2.capacity = v.capacity := by rw [hpop]
              have hl : (v.pop).2.len ≤ v.len := by
                rw [hpop]
                show v.buf.dropLast.length ≤ v.buf.length
                rw [List.length_dropLast]
                omega
              exact ⟨fun hle => hinv' (hc ▸ Nat.le_trans hl hle),
                hc ▸ hcap'⟩

/-- Claim C3: the invariant `length <= capacity` holds in the state
`new()` produces and is preserved by every successful push/pop sequence;
moreover along any successful sequence the capacity never decreases. -/
theorem vector_invariant_and_capacity_monotone {T : Type} (elemSize : Nat) :
    (∀ v0 : Vector T, Vector.new T elemSize = .ok v0 →
        v0.len ≤ v0.capacity) ∧
      (∀ (ops : List (Op T)) (v v' : Vector T) (outs : List (Option T)),
        Vector.runOps elemSize v ops = .ok (outs, v') →
        (v.len ≤ v.capacity → v'.len ≤ v'.capacity) ∧
          v.capacity ≤ v'.capacity) := by
  constructor
  · intro v0 hnew
    obtain ⟨hv0, -⟩ := Vector.new_ok hnew
    subst hv0
    exact Nat.le_refl 0
  · exact Vector.runOps_inv elemSize

/-- Claim C3, witness: the invariant and monotonicity at a concrete run
(push 7, pop, push 8, push 9 — the last push doubles the capacity). -/
theorem vector_invariant_and_capacity_monotone_witness :
    ({ buf := [], capacity := 0 } : Vector Nat).len ≤
        ({ buf := [], capacity := 0 } : Vector Nat).capacity ∧
      ((({ buf := [], capacity := 0 } : Vector Nat).len ≤
          ({ buf := [], capacity := 0 } : Vector Nat).capacity →
            ({ buf := [8, 9], capacity := 2 } : Vector Nat).len ≤
              ({ buf := [8, 9], capacity := 2 } : Vector Nat).capacity) ∧
        ({ buf := [], capacity := 0 } : Vector Nat).capacity ≤
          ({ buf := [8, 9], capacity := 2 } : Vector Nat).capacity) :=
  ⟨(vector_invariant_and_capacity_monotone (T := Nat) 8).1
      { buf := [], capacity := 0 } (by decide),
    (vector_invariant_and_capacity_monotone (T := Nat) 8).2
      [Op.push 7, Op.pop, Op.push 8, Op.push 9]
      { buf := [], capacity := 0 } { buf := [8, 9], capacity := 2 }
      [some 7] (by decide)⟩

/-- Claim C4: a successful `grow` takes the capacity from 0 to 1 and
otherwise doubles it exactly, leaves the length unchanged, and preserves
every previously pushed value at its index. -/
theorem vector_grow_doubles {T : Type} (elemSize : Nat) (v v' : Vector T)
    (h : v.grow elemSize = .ok v') :
    v'.capacity = (if v.capacity = 0 then 1 else v.capacity * 2) ∧
      v'.len = v.len ∧ v'.buf = v.buf ∧ ∀ i, v'.get? i = v.get? i := by
  obtain ⟨hbuf, hcap⟩ := Vector.grow_ok h
  exact ⟨hcap, by simp [Vector.len, hbuf], hbuf,
    fun i => by simp [Vector.get?, hbuf]⟩

/-- Claim C4, witness: growing a full one-element vector doubles the
capacity to 2 and keeps the element at index 0. -/
theorem vector_grow_doubles_witness :
    ({ buf := [5], capacity := 2 } : Vector Nat).capacity =
        (if ({ buf := [5], capacity := 1 } : Vector Nat).capacity = 0
          then 1 else ({ buf := [5], capacity := 1 } : Vector Nat).capacity * 2) ∧
      ({ buf := [5], capacity := 2 } : Vector Nat).len =
          ({ buf := [5], capacity := 1 } : Vector Nat).len ∧
        ({ buf := [5], capacity := 2 } : Vector Nat).buf =
            ({ buf := [5], capacity := 1 } : Vector Nat).buf ∧
          ∀ i, ({ buf := [5], capacity := 2 } : Vector Nat).get? i =
            ({ buf := [5], capacity := 1 } : Vector Nat).get? i :=
  vector_grow_doubles 8 { buf := [5], capacity := 1 }
    { buf := [5], capacity := 2 } (by decide)

/-- Claim C8: in `grow`, when the byte size for the new capacity exceeds
`isize::MAX` the operation fails fatally with the `Allocation too large`
assertion before any allocation is attempted (the state is untouched);
when the byte size is within the limit, that failure branch is
unreachable and `grow` succeeds. -/
theorem vector_grow_size_guard {T : Type} (elemSize : Nat) (v : Vector T) :
    (isizeMax < (if v.capacity = 0 then 1 else v.capacity * 2) * elemSize →
        v.grow elemSize = .error "Allocation too large") ∧
      ((if v.capacity = 0 then 1 else v.capacity * 2) * elemSize ≤ isizeMax →
        v.grow elemSize =
          .ok { v with
            capacity := if v.capacity = 0 then 1 else v.capacity * 2 }) := by
  constructor <;> intro h <;> unfold Vector.grow <;> dsimp only
  · rw [if_neg (by omega)]
  · rw [if_pos h]

/-- Claim C8, witness: an element size of `2 ^ 63` bytes overflows the
limit when doubling capacity 1, while an element size of 8 bytes is fine
from capacity 0. -/
theorem vector_grow_size_guard_witness :
    Vector.grow (2 ^ 63) ({ buf := [9], capacity := 1 } : Vector Nat) =
        .error "Allocation too large" ∧
      Vector.grow 8 ({ buf := [], capacity := 0 } : Vector Nat) =
        .ok { buf := [], capacity := 1 } :=
  ⟨(vector_grow_size_guard (2 ^ 63) { buf := [9], capacity := 1 }).1
      (by decide),
    (vector_grow_size_guard 8 { buf := [], capacity := 0 }).2 (by decide)⟩

/-- A successful `push` preserves the capacity characterization: the
capacity is 0 with length 0 (nothing allocated yet), or it is the least
power of two at least the length. -/
lemma Vector.push_least_pow2 {T : Type} {elemSize : Nat} {v w : Vector T}
    {x : T} (h : v.push elemSize x = .ok w) (hlc : v.len ≤ v.capacity)
    (hv : (v.len = 0 ∧ v.capacity = 0) ∨ isLeastPow2Geq v.capacity v.len) :
    (w.len = 0 ∧ w.capacity = 0) ∨ isLeastPow2Geq w.capacity w.len := by
  obtain ⟨hbuf, -, -, hcases⟩ := Vector.push_ok h
  have hwlen : w.len = v.len + 1 := by
    simp [Vector.len, hbuf]
  right
  rw [hwlen]
  cases hcases with
  | inl hsame =>
      obtain ⟨hne, hceq⟩ := hsame
      rw [hceq]
      cases hv with
      | inl h0 => exact absurd (h0.1.trans h0.2.symm) hne
      | inr hleast =>
          obtain ⟨hpow, hge, hmin⟩ := hleast
          exact ⟨hpow, by omega, fun m hm hlem => hmin m hm (by omega)⟩
  | inr hgrown =>
      obtain ⟨hfull, hceq⟩ := hgrown
      rw [hceq]
      by_cases hc0 : v.capacity = 0
      · rw [if_pos hc0]
        have hl0 : v.len = 0 := by omega
        rw [hl0]
        exact ⟨⟨0, rfl⟩, Nat.le_refl 1,
          fun m hm hlem => by
            obtain ⟨j, hj⟩ := hm
            subst hj
            exact Nat.one_le_two_pow⟩
      · rw [if_neg hc0]
        have hpow : ∃ k, v.capacity = 2 ^ k := by
          cases hv with
          | inl h0 => exact absurd h0.2 hc0
          | inr hleast => exact hleast.1
        obtain ⟨k, hk⟩ := hpow
        refine ⟨⟨k + 1, by rw [hk]; ring⟩, by omega, fun m hm hlem => ?_⟩
        obtain ⟨j, hj⟩ := hm
        subst hj
        rw [hk] at hfull ⊢
        have h2 : 2 ^ k < 2 ^ j := by
          rw [← hfull]
          exact Nat.lt_of_succ_le hlem
        have hkj : k < j := (Nat.pow_lt_pow_iff_right (by omega)).mp h2
        calc 2 ^ k * 2 = 2 ^ (k + 1) := by ring
          _ ≤ 2 ^ j := Nat.pow_le_pow_right (by omega) (by omega)

/-- Lemma: `pushAll` preserves the capacity characterization. -/
lemma Vector.pushAll_least_pow2 {T : Type} {elemSize : Nat} :
    ∀ (xs : List T) (v w : Vector T), v.pushAll elemSize xs = .ok w →
      v.len ≤ v.capacity →
      ((v.len = 0 ∧ v.capacity = 0) ∨ isLeastPow2Geq v.capacity v.len) →
      ((w.len = 0 ∧ w.capacity = 0) ∨ isLeastPow2Geq w.capacity w.len) := by
  intro xs
  induction xs with
  | nil =>
      intro v w h hlc hv
      unfold Vector.pushAll at h
      injection h with h
      subst h
      exact hv
  | cons x xs ih =>
      intro v w h hlc hv
      unfold Vector.pushAll at h
      cases hp : v.push elemSize x with
      | error e =>
          rw [hp] at h
          exact Except.noConfusion h
      | ok u =>
          rw [hp] at h
          obtain ⟨-, -, hinv, -⟩ := Vector.push_ok hp
          exact ih u w h (hinv hlc) (Vector.push_least_pow2 hp hlc hv)

/-- A successful run keeps the capacity in the set consisting of 0 and
the powers of two. -/
lemma Vector.runOps_capacity_pow2 {T : Type} {elemSize : Nat} :
    ∀ (ops : List (Op T)) (v v' : Vector T) (outs : List (Option T)),
      Vector.runOps elemSize v ops = .ok (outs, v') →
      (v.capacity = 0 ∨ ∃ k, v.capacity = 2 ^ k) →
      (v'.capacity = 0 ∨ ∃ k, v'.capacity = 2 ^ k) := by
  intro ops
  induction ops with
  | nil =>
      intro v v' outs h hv
      simp only [Vector.runOps, Except.ok.injEq, Prod.mk.injEq] at h
      obtain ⟨-, h2⟩ := h
      subst h2
      exact hv
  | cons op ops ih =>
      intro v v' outs h hv
      cases op with
      | push x =>
          unfold Vector.runOps at h
          cases hp : v.push elemSize x with
          | error e =>
              rw [hp] at h
              exact Except.noConfusion h
          | ok w =>
              rw [hp] at h
              refine ih w v' outs h ?_
              obtain ⟨-, -, -, hcases⟩ := Vector.push_ok hp
              cases hcases with
              | inl hsame => exact hsame.2 ▸ hv
              | inr hgrown =>
                  right
                  rw [hgrown.2]
                  by_cases hc0 : v.capacity = 0
                  · rw [if_pos hc0]
                    exact ⟨0, rfl⟩
                  · rw [if_neg hc0]
                    cases hv with
                    | inl h0 => exact absurd h0 hc0
                    | inr hpow =>
                        obtain ⟨k, hk⟩ := hpow
                        exact ⟨k + 1, by rw [hk]; ring⟩
      | pop =>
          unfold Vector.runOps at h
          cases hr : Vector.runOps elemSize (v.pop).2 ops with
          | error e =>
              rw [hr] at h
              exact Except.noConfusion h
          | ok p =>
              obtain ⟨outs1, vf⟩ := p
              rw [hr] at h
              simp only [Except.ok.injEq, Prod.mk.injEq] at h
              obtain ⟨-, h2⟩ := h
              subst h2
              refine ih (v.pop).2 vf outs1 hr ?_
              have hc : (v.pop).2.capacity = v.capacity := by
                rw [Vector.pop_eq v]
              rw [hc]
              exact hv

/-- Claim C9: after exactly `n >= 1` pushes (no pops) from `new()`, the
capacity is the least power of two at least `n`, and after 0 pushes it is
0; moreover the capacities reachable by any push/pop sequence are only 0
and powers of two. -/
theorem vector_capacity_exact_pow2 {T : Type} (elemSize : Nat) :
    (∀ (xs : List T) (v0 v : Vector T), Vector.new T elemSize = .ok v0 →
        v0.pushAll elemSize xs = .ok v →
        (xs.length = 0 → v.capacity = 0) ∧
          (1 ≤ xs.length → isLeastPow2Geq v.capacity xs.length)) ∧
      (∀ (ops : List (Op T)) (v0 v' : Vector T) (outs : List (Option T)),
        Vector.new T elemSize = .ok v0 →
        Vector.runOps elemSize v0 ops = .ok (outs, v') →
        v'.capacity = 0 ∨ ∃ k, v'.capacity = 2 ^ k) := by
  constructor
  · intro xs v0 v hnew h
    obtain ⟨hv0, -⟩ := Vector.new_ok hnew
    subst hv0
    obtain ⟨hbuf, -, -⟩ := Vector.pushAll_ok xs _ v h
    have hlen : v.len = xs.length := by
      simp [Vector.len, hbuf]
    have hchar := Vector.pushAll_least_pow2 xs _ v h (Nat.le_refl 0)
      (Or.inl ⟨rfl, rfl⟩)
    constructor
    · intro h0
      have hxs : xs = [] := List.length_eq_zero.mp h0
      subst hxs
      unfold Vector.pushAll at h
      injection h with h
      subst h
      rfl
    · intro h1
      cases hchar with
      | inl hc => exact absurd h1 (by omega)
      | inr hleast => exact hlen ▸ hleast
  · intro ops v0 v' outs hnew h
    obtain ⟨hv0, -⟩ := Vector.new_ok hnew
    subst hv0
    exact Vector.runOps_capacity_pow2 ops _ v' outs h (Or.inl rfl)

/-- Claim C9, witness: three pushes give capacity 4, the least power of
two at least 3, and a push/pop run ends with a power-of-two capacity. -/
theorem vector_capacity_exact_pow2_witness :
    ((([1, 2, 3] : List Nat).length = 0 →
        ({ buf := [1, 2, 3], capacity := 4 } : Vector Nat).capacity = 0) ∧
      (1 ≤ ([1, 2, 3] : List Nat).length →
        isLeastPow2Geq
          ({ buf := [1, 2, 3], capacity := 4 } : Vector Nat).capacity
          ([1, 2, 3] : List Nat).length)) ∧
      (({ buf := [], capacity := 1 } : Vector Nat).capacity = 0 ∨
        ∃ k, ({ buf := [], capacity := 1 } : Vector Nat).capacity = 2 ^ k) :=
  ⟨(vector_capacity_exact_pow2 (T := Nat) 8).1 [1, 2, 3]
      { buf := [], capacity := 0 } { buf := [1, 2, 3], capacity := 4 }
      (by decide) (by decide),
    (vector_capacity_exact_pow2 (T := Nat) 8).2 [Op.push 1, Op.pop]
      { buf := [], capacity := 0 } { buf := [], capacity := 1 }
      [some 1] (by decide) (by decide)⟩

/-- Refinement of `LinkedList.runOps` by the abstract stack: the chain of
nodes from the head, read in order, is exactly the abstract stack (top of
stack = head node). -/
lemma LinkedList.runOps_matches_stack {T : Type} :
    ∀ (ops : List (Op T)) (l : LinkedList T) (s : List T),
      l.head.toList = s →
      (l.runOps ops).1 = (runStack s ops).1 ∧
        ((l.runOps ops).2).head.toList = (runStack s ops).2 := by
  intro ops
  induction ops with
  | nil =>
      intro l s hs
      exact ⟨rfl, hs⟩
  | cons op ops ih =>
      intro l s hs
      cases op with
      | push x =>
          have hs' : (l.push x).head.toList = x :: s := by
            simp [LinkedList.push, Link.toList, hs]
          simpa [LinkedList.runOps, runStack] using ih (l.push x) (x :: s) hs'
      | pop =>
          cases hl : l.head with
          | nil =>
              have hpop : l.pop = (none, l) := by
                unfold LinkedList.pop
                rw [hl]
              have hsnil : s = [] := by
                rw [← hs, hl]
                rfl
              subst hsnil
              obtain ⟨ho, hb⟩ := ih l [] hs
              constructor
              · simp [LinkedList.runOps, runStack, hpop, ho]
              · simp [LinkedList.runOps, runStack, hpop, hb]
          | node e next =>
              have hpop : l.pop = (some e, { head := next }) := by
                unfold LinkedList.pop
                rw [hl]
              obtain ⟨ho, hb⟩ :=
                ih ({ head := next } : LinkedList T) next.toList rfl
              have hscons : s = e :: next.toList := by
                rw [← hs, hl]
                rfl
              subst hscons
              constructor
              · simp [LinkedList.runOps, runStack, hpop, ho]
              · simp [LinkedList.runOps, runStack, hpop, hb]

/-- Claim C10: the linked list is a LIFO stack at its public interface —
for every operation sequence from `LinkedList::new()`, the pops return
exactly what the abstract stack returns (each `pop` is `some` of the most
recently pushed, not yet popped element; `pop` on an empty list is
`none`), the final node chain mirrors the abstract stack, and popping the
empty list leaves it unchanged. -/
theorem linked_list_push_pop_lifo {T : Type} (ops : List (Op T)) :
    ((LinkedList.new T).runOps ops).1 = (runStack [] ops).1 ∧
      (((LinkedList.new T).runOps ops).2).head.toList = (runStack [] ops).2 ∧
      (LinkedList.new T).pop = (none, LinkedList.new T) := by
  obtain ⟨ho, hb⟩ :=
    LinkedList.runOps_matches_stack ops (LinkedList.new T) [] rfl
  exact ⟨ho, hb, rfl⟩

end Eda
